import Mathlib

set_option maxHeartbeats 1000000

/-! Verification development for the chunk-embed-index pipeline in
src/notebooks/embed_index.py. Document text is modelled as a list of
characters; Python floats in embedding vectors are opaque payloads,
modelled as lists of integers. -/

/-- Whitespace test used by Python str.split, modelled via Char.isWhitespace. -/
def isWs (c : Char) : Bool := c.isWhitespace

/-- A word as produced by Python str.split: non-empty and whitespace-free. -/
def isWord (w : List Char) : Bool := !w.isEmpty && w.all (fun c => !(isWs c))

/-- Scanning loop of Python text.split(): acc holds the word being read. -/
def splitWsAux : List Char → List Char → List (List Char)
  | [], acc => if acc.isEmpty then [] else [acc]
  | c :: cs, acc =>
    if isWs c then
      if acc.isEmpty then splitWsAux cs []
      else acc :: splitWsAux cs []
    else splitWsAux cs (acc ++ [c])

/-- Python text.split(): split on runs of whitespace, dropping empty pieces. -/
def splitWs (s : List Char) : List (List Char) := splitWsAux s []

/-- Python " ".join(chunk): words joined by a single space character. -/
def joinSpace : List (List Char) → List Char
  | [] => []
  | [w] => w
  | w :: x :: ws => w ++ ' ' :: joinSpace (x :: ws)

/-- Loop of chunk_text (embed_index.py lines 92-99): words are accumulated
into chunk with a running token counter; once the counter reaches
max_tokens the joined chunk is flushed; a non-empty remainder is flushed
at the end. -/
def chunkLoop (max_tokens : Nat) : List (List Char) → List (List Char) → Nat → List (List Char)
  | [], chunk, _ => if chunk.isEmpty then [] else [joinSpace chunk]
  | w :: ws, chunk, tokens =>
    if tokens + 1 ≥ max_tokens then joinSpace (chunk ++ [w]) :: chunkLoop max_tokens ws [] 0
    else chunkLoop max_tokens ws (chunk ++ [w]) (tokens + 1)

/-- chunk_text (embed_index.py lines 89-100): split the text into
whitespace tokens and group them greedily into chunks of at most
max_tokens tokens, each chunk stored as the single-space join of its
tokens. -/
def chunk_text (text : List Char) (max_tokens : Nat := 800) : List (List Char) :=
  chunkLoop max_tokens (splitWs text) [] 0

/-- Number of whitespace tokens of a text. -/
def numTokens (text : List Char) : Nat := (splitWs text).length

/-- Splitting isWord into its two components. -/
theorem isWord_parts (w : List Char) (h : isWord w = true) :
    w.isEmpty = false ∧ w.all (fun c => !(isWs c)) = true := by
  simp only [isWord, Bool.and_eq_true, Bool.not_eq_true'] at h
  exact h

/-- Scanning a whitespace-free block just extends the accumulator. -/
theorem splitWsAux_word (t : List Char) :
    ∀ (w acc : List Char), w.all (fun c => !(isWs c)) = true →
      splitWsAux (w ++ t) acc = splitWsAux t (acc ++ w) := by
  intro w
  induction w with
  | nil => intro acc _; simp
  | cons c w ih =>
    intro acc hw
    simp only [List.all_cons, Bool.and_eq_true, Bool.not_eq_true'] at hw
    simp only [List.cons_append, splitWsAux]
    rw [if_neg (by simp [hw.1])]
    simp only [List.append_eq]
    rw [ih (acc ++ [c]) (by simp only [List.all_eq_true, Bool.not_eq_true'] at hw ⊢; exact hw.2)]
    simp

/-- Hitting a space with a non-empty accumulator flushes the word. -/
theorem splitWsAux_flush (t : List Char) (acc : List Char) (h : acc.isEmpty = false) :
    splitWsAux (' ' :: t) acc = acc :: splitWsAux t [] := by
  simp only [splitWsAux]
  rw [if_pos (by decide), if_neg (by simp [h])]

/-- Round-trip of the tokenizer against the single-space join: splitting a
join of words recovers exactly the words. -/
theorem splitWs_joinSpace :
    ∀ ws : List (List Char), (∀ w ∈ ws, isWord w = true) →
      splitWs (joinSpace ws) = ws
  | [], _ => rfl
  | [w], h => by
    obtain ⟨h2, h1⟩ := isWord_parts w (h w (by simp))
    show splitWsAux (joinSpace [w]) [] = [w]
    have hjw : joinSpace [w] = w ++ [] := by simp [joinSpace]
    rw [hjw, splitWsAux_word [] w [] h1]
    simp [splitWsAux, h2]
  | w :: x :: ws, h => by
    obtain ⟨h2, h1⟩ := isWord_parts w (h w (by simp))
    show splitWsAux (joinSpace (w :: x :: ws)) [] = _
    have hj : joinSpace (w :: x :: ws) = w ++ ' ' :: joinSpace (x :: ws) := rfl
    rw [hj, splitWsAux_word _ w [] h1]
    simp only [List.nil_append]
    rw [splitWsAux_flush _ w h2]
    have ih := splitWs_joinSpace (x :: ws) (fun u hu => h u (by simp [hu]))
    exact congrArg (w :: ·) ih

/-- Every word emitted by the scanning loop is non-empty and
whitespace-free, provided the accumulator is whitespace-free. -/
theorem mem_splitWsAux_isWord :
    ∀ (s acc : List Char), acc.all (fun c => !(isWs c)) = true →
      ∀ w ∈ splitWsAux s acc, isWord w = true := by
  intro s
  induction s with
  | nil =>
    intro acc hacc w hw
    simp only [splitWsAux] at hw
    by_cases h : acc.isEmpty = true
    · simp [h] at hw
    · rw [if_neg (by simp [h])] at hw
      simp only [List.mem_singleton] at hw
      subst hw
      simp only [isWord, Bool.and_eq_true]
      exact ⟨by simp [h], hacc⟩
  | cons c cs ih =>
    intro acc hacc w hw
    simp only [splitWsAux] at hw
    by_cases h : isWs c = true
    · rw [if_pos (by simp [h])] at hw
      by_cases he : acc.isEmpty = true
      · rw [if_pos (by simp [he])] at hw
        exact ih [] (by simp) w hw
      · rw [if_neg (by simp [he])] at hw
        rcases List.mem_cons.mp hw with rfl | hw
        · simp only [isWord, Bool.and_eq_true]
          exact ⟨by simp [he], hacc⟩
        · exact ih [] (by simp) w hw
    · rw [if_neg (by simp [h])] at hw
      refine ih (acc ++ [c]) ?_ w hw
      simp only [List.all_append, List.all_cons, Bool.and_eq_true] at hacc ⊢
      exact ⟨hacc, by simp [h], by simp⟩

/-- Every token produced by splitWs is a word. -/
theorem mem_splitWs_isWord (s : List Char) :
    ∀ w ∈ splitWs s, isWord w = true :=
  mem_splitWsAux_isWord s [] (by simp)

/-- Word-level view of the chunkLoop: the same greedy grouping, before the
words of each chunk are joined with spaces. -/
def chunkGroups (L : Nat) : List (List Char) → List (List Char) → List (List (List Char))
  | [], chunk => if chunk.isEmpty then [] else [chunk]
  | w :: ws, chunk =>
    if chunk.length + 1 ≥ L then (chunk ++ [w]) :: chunkGroups L ws []
    else chunkGroups L ws (chunk ++ [w])

/-- chunkLoop is the joined image of chunkGroups whenever the token
counter equals the buffer length, which the loop maintains. -/
theorem chunkLoop_eq_groups (L : Nat) :
    ∀ (ws chunk : List (List Char)) (tokens : Nat), tokens = chunk.length →
      chunkLoop L ws chunk tokens = (chunkGroups L ws chunk).map joinSpace := by
  intro ws
  induction ws with
  | nil =>
    intro chunk tokens _
    simp only [chunkLoop, chunkGroups]
    by_cases h : chunk.isEmpty = true
    · simp [h]
    · simp [h]
  | cons w ws ih =>
    intro chunk tokens ht
    subst ht
    simp only [chunkLoop, chunkGroups]
    by_cases h : chunk.length + 1 ≥ L
    · rw [if_pos h, if_pos h]
      simp only [List.map_cons]
      rw [ih [] 0 rfl]
    · rw [if_neg h, if_neg h]
      rw [ih (chunk ++ [w]) (chunk.length + 1) (by simp)]

/-- Flattening the groups recovers buffer plus remaining words. -/
theorem chunkGroups_join (L : Nat) :
    ∀ (ws chunk : List (List Char)), (chunkGroups L ws chunk).flatten = chunk ++ ws := by
  intro ws
  induction ws with
  | nil =>
    intro chunk
    by_cases h : chunk.isEmpty = true
    · simp [chunkGroups, h, List.isEmpty_iff.mp h]
    · simp [chunkGroups, h]
  | cons w ws ih =>
    intro chunk
    simp only [chunkGroups]
    by_cases h : chunk.length + 1 ≥ L
    · rw [if_pos h]
      simp only [List.flatten_cons, ih []]
      simp
    · rw [if_neg h, ih (chunk ++ [w])]
      simp

/-- Every group is non-empty. -/
theorem chunkGroups_ne_nil (L : Nat) :
    ∀ (ws chunk : List (List Char)), ∀ g ∈ chunkGroups L ws chunk, g ≠ [] := by
  intro ws
  induction ws with
  | nil =>
    intro chunk g hg
    simp only [chunkGroups] at hg
    by_cases h : chunk.isEmpty = true
    · simp [h] at hg
    · rw [if_neg (by simp [h])] at hg
      simp only [List.mem_singleton] at hg
      subst hg
      intro hnil
      rw [hnil] at h
      exact h rfl
  | cons w ws ih =>
    intro chunk g hg
    simp only [chunkGroups] at hg
    by_cases h : chunk.length + 1 ≥ L
    · rw [if_pos h] at hg
      rcases List.mem_cons.mp hg with rfl | hg
      · simp
      · exact ih [] g hg
    · rw [if_neg h] at hg
      exact ih (chunk ++ [w]) g hg

/-- Every word of every group comes from the buffer or the input words. -/
theorem chunkGroups_mem_subset (L : Nat) :
    ∀ (ws chunk : List (List Char)), ∀ g ∈ chunkGroups L ws chunk,
      ∀ w ∈ g, w ∈ chunk ++ ws := by
  intro ws
  induction ws with
  | nil =>
    intro chunk g hg w hw
    simp only [chunkGroups] at hg
    by_cases h : chunk.isEmpty = true
    · simp [h] at hg
    · rw [if_neg (by simp [h])] at hg
      simp only [List.mem_singleton] at hg
      subst hg
      simpa using hw
  | cons w0 ws ih =>
    intro chunk g hg w hw
    simp only [chunkGroups] at hg
    by_cases h : chunk.length + 1 ≥ L
    · rw [if_pos h] at hg
      rcases List.mem_cons.mp hg with rfl | hg
      · rcases List.mem_append.mp hw with hw | hw
        · exact List.mem_append.mpr (Or.inl hw)
        · simp only [List.mem_singleton] at hw
          subst hw
          simp
      · have := ih [] g hg w hw
        simp only [List.nil_append] at this
        simp [this]
    · rw [if_neg h] at hg
      have := ih (chunk ++ [w0]) g hg w hw
      rcases List.mem_append.mp this with hx | hx
      · rcases List.mem_append.mp hx with hy | hy
        · exact List.mem_append.mpr (Or.inl hy)
        · simp only [List.mem_singleton] at hy
          subst hy
          simp
      · simp [hx]
/-- Every group except possibly the last has exactly L words, as long as
the buffer holds fewer than L words. -/
theorem chunkGroups_exact (L : Nat) :
    ∀ (ws chunk : List (List Char)), chunk.length < L →
      ∀ i, i + 1 < (chunkGroups L ws chunk).length →
        ((chunkGroups L ws chunk).getD i []).length = L := by
  intro ws
  induction ws with
  | nil =>
    intro chunk _ i hi
    simp only [chunkGroups] at hi
    by_cases h : chunk.isEmpty = true
    · simp [h] at hi
    · rw [if_neg (by simp [h])] at hi
      simp at hi
  | cons w ws ih =>
    intro chunk hlt i hi
    simp only [chunkGroups] at hi ⊢
    by_cases h : chunk.length + 1 ≥ L
    · rw [if_pos h] at hi ⊢
      cases i with
      | zero =>
        simp only [List.getD_cons_zero, List.length_append, List.length_singleton]
        omega
      | succ j =>
        simp only [List.getD_cons_succ]
        simp only [List.length_cons] at hi
        exact ih [] (by simp only [List.length_nil]; omega) j (by omega)
    · rw [if_neg h] at hi ⊢
      exact ih (chunk ++ [w]) (by simp only [List.length_append, List.length_singleton]; omega)
        i hi

/-- Every group has at most L words, as long as the buffer holds fewer
than L words. -/
theorem chunkGroups_le (L : Nat) :
    ∀ (ws chunk : List (List Char)), chunk.length < L →
      ∀ g ∈ chunkGroups L ws chunk, g.length ≤ L := by
  intro ws
  induction ws with
  | nil =>
    intro chunk hlt g hg
    simp only [chunkGroups] at hg
    by_cases h : chunk.isEmpty = true
    · simp [h] at hg
    · rw [if_neg (by simp [h])] at hg
      simp only [List.mem_singleton] at hg
      subst hg
      omega
  | cons w ws ih =>
    intro chunk hlt g hg
    simp only [chunkGroups] at hg
    by_cases h : chunk.length + 1 ≥ L
    · rw [if_pos h] at hg
      rcases List.mem_cons.mp hg with rfl | hg
      · simp only [List.length_append, List.length_singleton]
        omega
      · exact ih [] (by simp only [List.length_nil]; omega) g hg
    · rw [if_neg h] at hg
      exact ih (chunk ++ [w]) (by simp only [List.length_append, List.length_singleton]; omega)
        g hg

/-- Number of groups: the ceiling of the word count divided by L. -/
theorem chunkGroups_count (L : Nat) :
    ∀ (ws chunk : List (List Char)), chunk.length < L →
      (chunkGroups L ws chunk).length = (chunk.length + ws.length + L - 1) / L := by
  intro ws
  induction ws with
  | nil =>
    intro chunk hlt
    simp only [chunkGroups, List.length_nil]
    by_cases h : chunk.isEmpty = true
    · rw [if_pos (by simp [h])]
      have h0 : chunk.length = 0 := by
        cases chunk
        · rfl
        · simp at h
      rw [h0]
      simp only [List.length_nil]
      rw [Nat.div_eq_of_lt (by omega)]
    · rw [if_neg (by simp [h])]
      have h1 : 1 ≤ chunk.length := by
        cases chunk
        · simp at h
        · simp only [List.length_cons]
          omega
      simp only [List.length_singleton]
      have hm : chunk.length + 0 + L - 1 = (chunk.length - 1) + L := by omega
      rw [hm, Nat.add_div_right _ (by omega : 0 < L), Nat.div_eq_of_lt (by omega)]
  | cons w ws ih =>
    intro chunk hlt
    simp only [chunkGroups, List.length_cons]
    by_cases h : chunk.length + 1 ≥ L
    · rw [if_pos h]
      simp only [List.length_cons]
      rw [ih [] (by simp only [List.length_nil]; omega)]
      simp only [List.length_nil, Nat.zero_add]
      have h0 : 0 < L := by omega
      have heq : chunk.length + (ws.length + 1) + L - 1 = (ws.length + L - 1) + L := by omega
      rw [heq, Nat.add_div_right _ h0]
    · rw [if_neg h]
      rw [ih (chunk ++ [w]) (by simp only [List.length_append, List.length_singleton]; omega)]
      simp only [List.length_append, List.length_singleton]
      congr 1
      omega

/-- Feeding exactly enough words to fill the buffer flushes one group of
size L and restarts with an empty buffer. -/
theorem chunkGroups_fill (L : Nat) (ws2 : List (List Char)) :
    ∀ (ws1 chunk : List (List Char)), chunk.length + ws1.length = L → ws1 ≠ [] →
      chunkGroups L (ws1 ++ ws2) chunk = (chunk ++ ws1) :: chunkGroups L ws2 [] := by
  intro ws1
  induction ws1 with
  | nil => intro chunk _ hne; exact absurd rfl hne
  | cons w ws1 ih =>
    intro chunk hlen _
    simp only [List.cons_append, chunkGroups]
    cases ws1 with
    | nil =>
      simp only [List.length_cons, List.length_nil] at hlen
      rw [if_pos (by omega)]
      simp
    | cons w1 ws1r =>
      rw [if_neg (by simp only [List.length_cons] at hlen ⊢; omega)]
      simp only [List.append_eq]
      rw [ih (chunk ++ [w]) (by simp only [List.length_append, List.length_singleton,
        List.length_cons, List.length_nil] at hlen ⊢; omega) (by simp)]
      simp

/-- chunk_text as the spaced join of the greedy word groups. -/
theorem chunk_text_eq_groups (text : List Char) (L : Nat) :
    chunk_text text L = (chunkGroups L (splitWs text) []).map joinSpace :=
  chunkLoop_eq_groups L (splitWs text) [] 0 rfl

/-- Every word inside every group of a document is a proper word. -/
theorem chunkGroups_words (text : List Char) (L : Nat) :
    ∀ g ∈ chunkGroups L (splitWs text) [], ∀ w ∈ g, isWord w = true := by
  intro g hg w hw
  have hmem := chunkGroups_mem_subset L (splitWs text) [] g hg w hw
  simp only [List.nil_append] at hmem
  exact mem_splitWs_isWord text w hmem

/-- Splitting an emitted chunk recovers exactly its group of words. -/
theorem splitWs_of_mem_chunk_text (text : List Char) (L : Nat) :
    ∀ c ∈ chunk_text text L, ∃ g ∈ chunkGroups L (splitWs text) [],
      c = joinSpace g ∧ splitWs c = g := by
  intro c hc
  rw [chunk_text_eq_groups] at hc
  obtain ⟨g, hg, rfl⟩ := List.mem_map.mp hc
  exact ⟨g, hg, rfl, splitWs_joinSpace g (chunkGroups_words text L g hg)⟩

/-- The spaced join of a non-empty list of words is non-empty. -/
theorem joinSpace_ne_nil :
    ∀ g : List (List Char), g ≠ [] → (∀ w ∈ g, isWord w = true) →
      joinSpace g ≠ []
  | [], hne, _ => absurd rfl hne
  | [w], _, hw => by
    obtain ⟨h2, _⟩ := isWord_parts w (hw w (by simp))
    simp only [joinSpace]
    intro hnil
    rw [hnil] at h2
    simp at h2
  | w :: x :: ws, _, _ => by
    simp only [joinSpace]
    simp

/-- getD over a joinSpace-mapped list, in bounds. -/
theorem getD_map_joinSpace :
    ∀ (gs : List (List (List Char))) (i : Nat), i < gs.length →
      (gs.map joinSpace).getD i [] = joinSpace (gs.getD i []) := by
  intro gs
  induction gs with
  | nil => intro i hi; simp at hi
  | cons g gs ih =>
    intro i hi
    cases i with
    | zero => rfl
    | succ j =>
      simp only [List.map_cons, List.getD_cons_succ]
      exact ih j (by simp only [List.length_cons] at hi; omega)

/-- getD at an in-bounds position is a member of the list. -/
theorem getD_mem_of_lt :
    ∀ (gs : List (List (List Char))) (i : Nat), i < gs.length → gs.getD i [] ∈ gs := by
  intro gs
  induction gs with
  | nil => intro i hi; simp at hi
  | cons g gs ih =>
    intro i hi
    cases i with
    | zero => simp
    | succ j =>
      simp only [List.getD_cons_succ, List.mem_cons]
      exact Or.inr (ih j (by simp only [List.length_cons] at hi; omega))

/-- Claim C1: for every document text and every maximum chunk size L at
least 1, concatenating the whitespace token sequences of the chunks
returned by chunk_text, in order, equals the whitespace token sequence of
the input text. -/
theorem chunk_text_roundtrip (text : List Char) (L : Nat) (hL : 1 ≤ L) :
    ((chunk_text text L).map splitWs).flatten = splitWs text := by
  rw [chunk_text_eq_groups, List.map_map]
  have hmap : (chunkGroups L (splitWs text) []).map (splitWs ∘ joinSpace)
      = (chunkGroups L (splitWs text) []).map id := by
    apply List.map_congr_left
    intro g hg
    exact splitWs_joinSpace g (chunkGroups_words text L g hg)
  rw [hmap, List.map_id]
  have hj := chunkGroups_join L (splitWs text) []
  simpa using hj

/-- Witness for C1 at a concrete document and limit. -/
theorem chunk_text_roundtrip_witness :
    1 ≤ 2 ∧ ((chunk_text ('a' :: 'b' :: ' ' :: 'c' :: ' ' :: 'd' :: []) 2).map
        splitWs).flatten = splitWs ('a' :: 'b' :: ' ' :: 'c' :: ' ' :: 'd' :: []) :=
  ⟨by decide, chunk_text_roundtrip ('a' :: 'b' :: ' ' :: 'c' :: ' ' :: 'd' :: []) 2 (by decide)⟩

/-- Claim C5: for every document text and every limit L at least 1, every
chunk except possibly the last has at most L whitespace tokens, and every
emitted chunk is non-empty (both as text and in tokens). -/
theorem chunk_text_bounded (text : List Char) (L : Nat) (hL : 1 ≤ L) :
    (∀ i, i + 1 < (chunk_text text L).length →
        (splitWs ((chunk_text text L).getD i [])).length ≤ L) ∧
    (∀ c ∈ chunk_text text L, c ≠ [] ∧ splitWs c ≠ []) := by
  constructor
  · intro i hi
    have hi' : i < (chunk_text text L).length := by omega
    rw [List.getD_eq_getElem _ _ hi']
    have hmem : (chunk_text text L)[i] ∈ chunk_text text L := List.getElem_mem hi'
    obtain ⟨g, hg, _, hsplit⟩ := splitWs_of_mem_chunk_text text L _ hmem
    rw [hsplit]
    exact chunkGroups_le L (splitWs text) [] (by simp only [List.length_nil]; omega) g hg
  · intro c hc
    obtain ⟨g, hg, hcj, hsplit⟩ := splitWs_of_mem_chunk_text text L c hc
    have hgne : g ≠ [] := chunkGroups_ne_nil L (splitWs text) [] g hg
    constructor
    · rw [hcj]
      exact joinSpace_ne_nil g hgne (chunkGroups_words text L g hg)
    · rw [hsplit]
      exact hgne

/-- Witness for C5 at a concrete document and limit. -/
theorem chunk_text_bounded_witness :
    1 ≤ 2 ∧ ((∀ i, i + 1 < (chunk_text ('a' :: ' ' :: 'b' :: ' ' :: 'c' :: []) 2).length →
        (splitWs ((chunk_text ('a' :: ' ' :: 'b' :: ' ' :: 'c' :: []) 2).getD i [])).length ≤ 2) ∧
      (∀ c ∈ chunk_text ('a' :: ' ' :: 'b' :: ' ' :: 'c' :: []) 2, c ≠ [] ∧ splitWs c ≠ [])) :=
  ⟨by decide, chunk_text_bounded ('a' :: ' ' :: 'b' :: ' ' :: 'c' :: []) 2 (by decide)⟩

/-- Claim C9: for every document text and every limit L at least 1, every
chunk except the last has exactly L whitespace tokens, and the number of
chunks is the ceiling of the token count divided by L. -/
theorem chunk_text_exact_sizes (text : List Char) (L : Nat) (hL : 1 ≤ L) :
    (∀ i, i + 1 < (chunk_text text L).length →
        (splitWs ((chunk_text text L).getD i [])).length = L) ∧
    (chunk_text text L).length = (numTokens text + L - 1) / L := by
  constructor
  · intro i hi
    have hlen : (chunk_text text L).length = (chunkGroups L (splitWs text) []).length := by
      rw [chunk_text_eq_groups, List.length_map]
    have hig : i < (chunkGroups L (splitWs text) []).length := by omega
    rw [chunk_text_eq_groups, getD_map_joinSpace _ i hig]
    have hmem := getD_mem_of_lt _ i hig
    rw [splitWs_joinSpace _ (chunkGroups_words text L _ hmem)]
    have hex := chunkGroups_exact L (splitWs text) []
      (by simp only [List.length_nil]; omega) i (by omega)
    rw [List.getD_eq_getElem _ _ (by omega)] at hex
    rw [List.getD_eq_getElem _ _ hig]
    exact hex
  · rw [chunk_text_eq_groups, List.length_map]
    rw [chunkGroups_count L (splitWs text) [] (by simp only [List.length_nil]; omega)]
    simp only [List.length_nil, Nat.zero_add]
    rfl

/-- Witness for C9 at a concrete document and limit. -/
theorem chunk_text_exact_sizes_witness :
    1 ≤ 2 ∧ ((∀ i, i + 1 < (chunk_text ('a' :: ' ' :: 'b' :: ' ' :: 'c' :: []) 2).length →
        (splitWs ((chunk_text ('a' :: ' ' :: 'b' :: ' ' :: 'c' :: []) 2).getD i [])).length = 2) ∧
      (chunk_text ('a' :: ' ' :: 'b' :: ' ' :: 'c' :: []) 2).length
        = (numTokens ('a' :: ' ' :: 'b' :: ' ' :: 'c' :: []) + 2 - 1) / 2) :=
  ⟨by decide, chunk_text_exact_sizes ('a' :: ' ' :: 'b' :: ' ' :: 'c' :: []) 2 (by decide)⟩

/-- Claim C10: chunk_text depends only on the whitespace token sequence of
its input; each stored chunk is the single-space join of its own tokens;
and consequently a stored chunk need not be a contiguous substring of the
original text, witnessed by a document containing a newline. -/
theorem chunk_text_token_determined :
    (∀ t1 t2 : List Char, ∀ L : Nat, splitWs t1 = splitWs t2 →
        chunk_text t1 L = chunk_text t2 L) ∧
    (∀ (text : List Char) (L : Nat), ∀ c ∈ chunk_text text L, c = joinSpace (splitWs c)) ∧
    ((chunk_text ('a' :: '\n' :: ' ' :: 'b' :: []) 800).getD 0 [] = 'a' :: ' ' :: 'b' :: [] ∧
      ¬ List.IsInfix ('a' :: ' ' :: 'b' :: []) ('a' :: '\n' :: ' ' :: 'b' :: [])) := by
  refine ⟨?_, ?_, by decide, by decide⟩
  · intro t1 t2 L h
    unfold chunk_text
    rw [h]
  · intro text L c hc
    obtain ⟨g, _, hcj, hsplit⟩ := splitWs_of_mem_chunk_text text L c hc
    rw [hsplit, hcj]

/-- Witness for C10 instantiating the universally quantified part at two
concrete texts that differ only in whitespace. -/
theorem chunk_text_token_determined_witness :
    chunk_text ('a' :: '\t' :: 'b' :: []) 800 = chunk_text ('a' :: ' ' :: ' ' :: 'b' :: []) 800 :=
  chunk_text_token_determined.1 ('a' :: '\t' :: 'b' :: []) ('a' :: ' ' :: ' ' :: 'b' :: []) 800
    (by decide)

/-- Outcome of one call to the remote embedding provider: a vector, a
transient error (rate limit, timeout, 5xx), or a fatal error (bad input,
auth, other 4xx). The vector payload is opaque. -/
inductive Outcome where
  | ok (v : List Int)
  | transient
  | fatal
deriving DecidableEq

/-- An outcome that raises an exception. -/
def Outcome.fails : Outcome → Bool
  | .ok _ => false
  | .transient => true
  | .fatal => true

/-- Maximum attempt count of the embed retry decorator:
stop_after_attempt(6) in embed_index.py line 81. -/
def EMBED_MAX_ATTEMPTS : Nat := 6

/-- Upper envelope of the randomized wait of
wait_random_exponential(min=1, max=10) before retrying a failed attempt:
the sampled wait is uniform in [0, wait_high attempt], where the envelope
is multiplier times 2 to the power (attempt - 1), clamped between the
configured minimum 1 and maximum 10. -/
def wait_high (attempt : Nat) : Nat := max (max 0 1) (min (2 ^ (attempt - 1)) 10)

/-- Retry loop of the tenacity decorator on embed (embed_index.py line
81): the provider is called with successive call numbers; any raised
error, transient or fatal alike, is retried (the decorator carries no
exception-type filter), until an attempt returns a vector or the attempt
budget is exhausted. Returns the vector obtained, if any, together with
the number of provider calls made. -/
def embedLoop (provider : Nat → Outcome) : Nat → Nat → Option (List Int) × Nat
  | _, 0 => (none, 0)
  | n, k + 1 =>
    match provider n with
    | .ok v => (some v, 1)
    | _ =>
      let r := embedLoop provider (n + 1) k
      (r.1, r.2 + 1)

/-- embed (embed_index.py lines 81-87): one embedding request wrapped in
the tenacity retry decorator with a budget of 6 attempts. The first
component is some vector on success and none when the budget is exhausted
and the terminal error is surfaced; the second component counts provider
calls. -/
def embed (provider : Nat → Outcome) (n : Nat) : Option (List Int) × Nat :=
  embedLoop provider n EMBED_MAX_ATTEMPTS

/-- The retry loop never makes more calls than its budget. -/
theorem embedLoop_calls_le (provider : Nat → Outcome) :
    ∀ (k n : Nat), (embedLoop provider n k).2 ≤ k := by
  intro k
  induction k with
  | zero => intro n; simp [embedLoop]
  | succ k ih =>
    intro n
    simp only [embedLoop]
    cases provider n with
    | ok v => simp
    | transient =>
      simp only []
      have := ih (n + 1)
      omega
    | fatal =>
      simp only []
      have := ih (n + 1)
      omega

/-- If the first k outcomes fail and outcome k succeeds within the
budget, the loop returns that vector after exactly k + 1 calls. -/
theorem embedLoop_success (provider : Nat → Outcome) :
    ∀ (k b n : Nat) (v : List Int), k < b →
      (∀ j, j < k → (provider (n + j)).fails = true) →
      provider (n + k) = Outcome.ok v →
      embedLoop provider n b = (some v, k + 1) := by
  intro k
  induction k with
  | zero =>
    intro b n v hb _ hok
    cases b with
    | zero => omega
    | succ b =>
      simp only [embedLoop]
      rw [show n + 0 = n from rfl] at hok
      rw [hok]
  | succ k ih =>
    intro b n v hb hfail hok
    cases b with
    | zero => omega
    | succ b =>
      have h0 : (provider n).fails = true := by
        have := hfail 0 (by omega)
        simpa using this
      simp only [embedLoop]
      cases hpn : provider n with
      | ok w => rw [hpn] at h0; simp [Outcome.fails] at h0
      | transient =>
        have hrec := ih b (n + 1) v (by omega)
          (fun j hj => by
            have := hfail (j + 1) (by omega)
            rw [show n + (j + 1) = n + 1 + j by omega] at this
            exact this)
          (by rw [show n + 1 + k = n + (k + 1) by omega]; exact hok)
        rw [hrec]
      | fatal =>
        have hrec := ih b (n + 1) v (by omega)
          (fun j hj => by
            have := hfail (j + 1) (by omega)
            rw [show n + (j + 1) = n + 1 + j by omega] at this
            exact this)
          (by rw [show n + 1 + k = n + (k + 1) by omega]; exact hok)
        rw [hrec]

/-- If every outcome within the budget fails, the loop exhausts the
budget, surfaces no vector, and has called the provider exactly budget
many times. -/
theorem embedLoop_exhaust (provider : Nat → Outcome) :
    ∀ (b n : Nat), (∀ j, j < b → (provider (n + j)).fails = true) →
      embedLoop provider n b = (none, b) := by
  intro b
  induction b with
  | zero => intro n _; rfl
  | succ b ih =>
    intro n hfail
    have h0 : (provider n).fails = true := by
      have := hfail 0 (by omega)
      simpa using this
    simp only [embedLoop]
    cases hpn : provider n with
    | ok w => rw [hpn] at h0; simp [Outcome.fails] at h0
    | transient =>
      rw [ih (n + 1) (fun j hj => by
        have := hfail (j + 1) (by omega)
        rw [show n + (j + 1) = n + 1 + j by omega] at this
        exact this)]
    | fatal =>
      rw [ih (n + 1) (fun j hj => by
        have := hfail (j + 1) (by omega)
        rw [show n + (j + 1) = n + 1 + j by omega] at this
        exact this)]

/-- Claim C4: embed retries transient provider errors with randomized
exponential backoff whose wait envelope starts at 1 time-unit and is
capped at 10 time-units, makes at most 6 attempts in total, returns the
provider vector when an attempt within the budget succeeds after only
transient errors, and surfaces a terminal error (no vector) once all 6
attempts have failed. -/
theorem embed_retry_policy :
    (wait_high 1 = 1 ∧ ∀ a, wait_high a ≤ 10) ∧
    (∀ (provider : Nat → Outcome) (n : Nat), (embed provider n).2 ≤ 6) ∧
    (∀ (provider : Nat → Outcome) (n k : Nat) (v : List Int), k + 1 ≤ 6 →
        (∀ j, j < k → provider (n + j) = Outcome.transient) →
        provider (n + k) = Outcome.ok v →
        embed provider n = (some v, k + 1)) ∧
    (∀ (provider : Nat → Outcome) (n : Nat),
        (∀ j, j < 6 → provider (n + j) = Outcome.transient) →
        (embed provider n).1 = none) := by
  refine ⟨⟨rfl, ?_⟩, ?_, ?_, ?_⟩
  · intro a
    have h1 := Nat.min_le_right (2 ^ (a - 1)) 10
    simp only [wait_high]
    omega
  · intro provider n
    exact embedLoop_calls_le provider EMBED_MAX_ATTEMPTS n
  · intro provider n k v hk hfail hok
    exact embedLoop_success provider k EMBED_MAX_ATTEMPTS n v
      (by simp only [EMBED_MAX_ATTEMPTS]; omega)
      (fun j hj => by rw [hfail j hj]; rfl) hok
  · intro provider n hfail
    rw [show embed provider n = embedLoop provider n 6 from rfl]
    rw [embedLoop_exhaust provider 6 n (fun j hj => by rw [hfail j hj]; rfl)]

/-- Witness for C4: a provider failing transiently twice and then
succeeding makes embed return the vector after exactly 3 calls. -/
theorem embed_retry_policy_witness :
    embed (fun m => if m < 2 then Outcome.transient else Outcome.ok [5]) 0 = (some [5], 3) :=
  embed_retry_policy.2.2.1 (fun m => if m < 2 then Outcome.transient else Outcome.ok [5])
    0 2 [5] (by omega) (by decide) (by decide)

/-- Claim C2 counterexample: a provider whose every call raises a fatal
error is invoked 6 times by embed, not exactly once: the tenacity
decorator of embed carries no exception-type filter, so a fatal error is
retried like a transient one instead of being surfaced immediately. -/
theorem embed_fatal_retried_cex :
    (embed (fun _ => Outcome.fatal) 0).2 = 6 ∧
      ¬ (embed (fun _ => Outcome.fatal) 0).2 = 1 := by
  decide

/-- Claim C2 amended: a chunk whose embedding calls keep raising a fatal
provider error is retried like any other failure; the provider is invoked
once per attempt up to the 6-attempt budget, and the error is surfaced
only after the budget is exhausted. -/
theorem embed_fatal_exhausts (provider : Nat → Outcome) (n : Nat)
    (h : ∀ j, j < 6 → provider (n + j) = Outcome.fatal) :
    embed provider n = (none, 6) := by
  rw [show embed provider n = embedLoop provider n 6 from rfl]
  exact embedLoop_exhaust provider 6 n (fun j hj => by rw [h j hj]; rfl)

/-- Witness for the amended C2 at an always-fatal provider. -/
theorem embed_fatal_exhausts_witness :
    embed (fun _ => Outcome.fatal) 0 = (none, 6) :=
  embed_fatal_exhausts (fun _ => Outcome.fatal) 0 (fun j _ => rfl)

/-- A record upserted into the search index (embed_index.py lines
481-483): id, chunk content, embedding vector. -/
structure IndexEntry where
  id : String
  content : List Char
  vector : List Int
deriving DecidableEq

/-- Deterministic entry identifier f-string from embed_index.py line 481:
the document identifier (filename stem), an underscore, and the 0-based
chunk ordinal. -/
def entryId (docId : String) (i : Nat) : String := docId ++ "_" ++ toString i

/-- Inner loop of main (embed_index.py lines 479-483): for each chunk, in
order, call embed and upsert one entry. An embedding failure after retry
exhaustion raises out of the loop: entries upserted before the failure
remain, the remaining chunks are abandoned, and the failure flag is set.
Arguments after the chunk list: current ordinal, current provider call
number. Returns (entries upserted, next provider call number, failed). -/
def processChunks (provider : Nat → Outcome) (docId : String) :
    List (List Char) → Nat → Nat → List IndexEntry × Nat × Bool
  | [], _, n => ([], n, false)
  | c :: cs, i, n =>
    match embed provider n with
    | (some v, calls) =>
      let rest := processChunks provider docId cs (i + 1) (n + calls)
      (⟨entryId docId i, c, v⟩ :: rest.1, rest.2)
    | (none, calls) => ([], n + calls, true)

/-- Observable result of a pipeline run: entries upserted, documents for
which the per-document completion line was printed, and whether the run
was halted by an uncaught exception. -/
structure RunResult where
  upserts : List IndexEntry
  indexedDocs : List String
  halted : Bool
deriving DecidableEq

/-- Document loop of main (embed_index.py lines 474-484): documents are
processed in order; each is chunked with the default limit 800 and its
chunks embedded and upserted. The loop body has no exception handler, so
a failure inside a document propagates out of main: no later document is
processed and no completion line is printed for the failing document. -/
def runDocs (provider : Nat → Outcome) : Nat → List (String × List Char) → RunResult
  | _, [] => ⟨[], [], false⟩
  | n, (docId, text) :: ds =>
    let p := processChunks provider docId (chunk_text text 800) 0 n
    if p.2.2 then ⟨p.1, [], true⟩
    else
      let r := runDocs provider p.2.1 ds
      ⟨p.1 ++ r.upserts, docId :: r.indexedDocs, r.halted⟩

/-- Result of the create_or_update_index service call inside build_index:
either the declaration is accepted, or the service rejects it, e.g.
because the index already exists with a different vector dimensionality
or field set. -/
inductive SchemaCallResult where
  | accepted
  | conflict
deriving DecidableEq

/-- What the caller of build_index can observe: whether an error
propagated out of build_index, and whether an error line was logged. -/
structure BuildOutcome where
  raisedToCaller : Bool
  loggedError : Bool
deriving DecidableEq

/-- build_index (embed_index.py lines 102-466, declaration call and
handler at lines 461-466): the create_or_update_index call runs inside a
try block whose except clause catches every Exception, prints the error
with a traceback, and falls through, so build_index always returns
normally. -/
def build_index (svc : SchemaCallResult) : BuildOutcome :=
  match svc with
  | .accepted => ⟨false, false⟩
  | .conflict => ⟨false, true⟩

/-- Python main (embed_index.py lines 468-484), named mainRun because the
name main is reserved in Lean: declare the index schema once, then run
the document loop. -/
def mainRun (svc : SchemaCallResult) (provider : Nat → Outcome)
    (docs : List (String × List Char)) : BuildOutcome × RunResult :=
  (build_index svc, runDocs provider 0 docs)

/-- Claim C3 counterexample: with a provider that always raises a fatal
error and two one-chunk documents, the run halts on the first document;
the second document is never processed (no completion line for it) even
though the claim requires every subsequent document to be processed. -/
theorem run_continue_after_failure_cex :
    (runDocs (fun _ => Outcome.fatal) 0 [("d0", ['a']), ("d1", ['b'])]).halted = true ∧
    ¬ "d1" ∈ (runDocs (fun _ => Outcome.fatal) 0 [("d0", ['a']), ("d1", ['b'])]).indexedDocs := by
  decide

/-- Claim C3 amended: when processing a document fails with an
unrecoverable embedding error, the entries upserted before the failure
remain and the remaining chunks of that document are abandoned, but the
uncaught error halts the whole run: the document is not marked indexed
and no subsequent document is processed. -/
theorem run_halts_on_failure (provider : Nat → Outcome) (n : Nat) (docId : String)
    (text : List Char) (ds : List (String × List Char))
    (h : (processChunks provider docId (chunk_text text 800) 0 n).2.2 = true) :
    runDocs provider n ((docId, text) :: ds)
      = ⟨(processChunks provider docId (chunk_text text 800) 0 n).1, [], true⟩ := by
  simp only [runDocs]
  rw [if_pos h]

/-- Witness for the amended C3: concrete failing first document. -/
theorem run_halts_on_failure_witness :
    runDocs (fun _ => Outcome.fatal) 0 [("d0", ['a']), ("d1", ['b'])]
      = ⟨(processChunks (fun _ => Outcome.fatal) "d0" (chunk_text ['a'] 800) 0 0).1,
          [], true⟩ :=
  run_halts_on_failure (fun _ => Outcome.fatal) 0 "d0" ['a'] [("d1", ['b'])] (by decide)

/-- Claim C7 counterexample: when the index-declaration call is rejected
by the service (index already existing with an incompatible shape),
build_index does not surface any error to its caller: the except clause
at embed_index.py lines 463-466 catches every Exception and returns
normally. -/
theorem build_index_conflict_cex :
    ¬ (build_index SchemaCallResult.conflict).raisedToCaller = true := by
  decide

/-- Claim C7 amended: on a rejected index declaration, build_index logs
the error and returns normally; no error reaches the caller, and the
pipeline then proceeds to process documents regardless. -/
theorem build_index_swallows_conflict :
    (build_index SchemaCallResult.conflict).raisedToCaller = false ∧
    (build_index SchemaCallResult.conflict).loggedError = true ∧
    (∀ provider docs, (mainRun SchemaCallResult.conflict provider docs).2
      = runDocs provider 0 docs) := by
  exact ⟨rfl, rfl, fun _ _ => rfl⟩

/-- With a provider that always returns a vector, the inner loop never
fails and produces entries whose ids are the document id joined with the
consecutive ordinals. -/
theorem processChunks_ids (provider : Nat → Outcome) (docId : String)
    (hok : ∀ m, ∃ v, provider m = Outcome.ok v) :
    ∀ (chunks : List (List Char)) (i n : Nat),
      (processChunks provider docId chunks i n).1.map IndexEntry.id
          = (List.range chunks.length).map (fun j => entryId docId (i + j)) ∧
        (processChunks provider docId chunks i n).2.2 = false := by
  intro chunks
  induction chunks with
  | nil => intro i n; exact ⟨rfl, rfl⟩
  | cons c cs ih =>
    intro i n
    obtain ⟨v, hv⟩ := hok n
    have hembed : embed provider n = (some v, 1) := by
      rw [show embed provider n = embedLoop provider n 6 from rfl]
      simp [embedLoop, hv]
    simp only [processChunks, hembed]
    obtain ⟨ih1, ih2⟩ := ih (i + 1) (n + 1)
    refine ⟨?_, ih2⟩
    simp only [List.map_cons, List.length_cons, List.range_succ_eq_map, ih1]
    simp only [List.map_map]
    congr 1
    apply List.map_congr_left
    intro j _
    simp only [Function.comp_apply]
    rw [show i + 1 + j = i + (j + 1) by omega]

/-- A word list of exactly L words makes a single group. -/
theorem chunkGroups_exact_one (L : Nat) (ws : List (List Char))
    (hL : ws.length = L) (hne : ws ≠ []) :
    chunkGroups L ws [] = [ws] := by
  have h := chunkGroups_fill L [] ws [] (by simp [hL]) hne
  simpa [chunkGroups] using h

/-- Scenario A document: 1600 whitespace tokens. -/
def acmeText : List Char := joinSpace (List.replicate 1600 ['a'])

/-- The scenario A document splits into 1600 one-letter tokens. -/
theorem acme_splits : splitWs acmeText = List.replicate 1600 ['a'] := by
  apply splitWs_joinSpace
  intro w hw
  rw [List.eq_of_mem_replicate hw]
  decide

/-- Scenario A chunking: exactly two chunks of 800 tokens each. -/
theorem acme_chunks :
    chunk_text acmeText 800
      = [joinSpace (List.replicate 800 ['a']), joinSpace (List.replicate 800 ['a'])] := by
  rw [chunk_text_eq_groups, acme_splits]
  have h1600 : List.replicate 1600 (['a'] : List Char)
      = List.replicate 800 ['a'] ++ List.replicate 800 ['a'] := by
    rw [← List.replicate_add]
  rw [h1600]
  rw [chunkGroups_fill 800 (List.replicate 800 ['a']) (List.replicate 800 ['a']) []
    (by simp only [List.length_nil, List.length_replicate])
    (by simp only [ne_eq, List.replicate_eq_nil_iff]; omega)]
  rw [chunkGroups_exact_one 800 (List.replicate 800 ['a']) (by rw [List.length_replicate])
    (by simp only [ne_eq, List.replicate_eq_nil_iff]; omega)]
  simp only [List.map_cons, List.map_nil, List.nil_append]

/-- Claim C6: the IndexEntry id of the chunk at ordinal i of a document
is exactly the document id, an underscore, and i; and the scenario A
document of 1600 tokens with limit 800 yields exactly 2 chunks of 800
tokens each, upserted under ids ACME-2024-10K_0 and ACME-2024-10K_1. -/
theorem index_entry_ids :
    (∀ (provider : Nat → Outcome) (docId : String),
      (∀ m, ∃ v, provider m = Outcome.ok v) →
      ∀ (chunks : List (List Char)) (i n : Nat),
        (processChunks provider docId chunks i n).1.map IndexEntry.id
          = (List.range chunks.length).map (fun j => entryId docId (i + j))) ∧
    ((chunk_text acmeText 800).length = 2 ∧
      (∀ c ∈ chunk_text acmeText 800, (splitWs c).length = 800) ∧
      (runDocs (fun _ => Outcome.ok [1]) 0
          [("ACME-2024-10K", acmeText)]).upserts.map IndexEntry.id
        = ["ACME-2024-10K_0", "ACME-2024-10K_1"]) := by
  have hlen : (chunk_text acmeText 800).length = 2 := by
    rw [acme_chunks]
    rfl
  refine ⟨?_, hlen, ?_, ?_⟩
  · intro provider docId hok chunks i n
    exact (processChunks_ids provider docId hok chunks i n).1
  · rw [acme_chunks]
    have hr : splitWs (joinSpace (List.replicate 800 (['a'] : List Char)))
        = List.replicate 800 ['a'] := by
      apply splitWs_joinSpace
      intro w hw
      rw [List.eq_of_mem_replicate hw]
      decide
    intro c hc
    rcases List.mem_cons.mp hc with rfl | hc2
    · rw [hr, List.length_replicate]
    · rcases List.mem_cons.mp hc2 with rfl | hc3
      · rw [hr, List.length_replicate]
      · cases hc3
  · have hok : ∀ m, ∃ v, (fun _ => Outcome.ok [1] : Nat → Outcome) m = Outcome.ok v :=
      fun _ => ⟨[1], rfl⟩
    have hpc := processChunks_ids (fun _ => Outcome.ok [1]) "ACME-2024-10K" hok
      (chunk_text acmeText 800) 0 0
    simp only [runDocs]
    rw [if_neg (by rw [hpc.2]; simp)]
    simp only [List.append_nil]
    rw [hpc.1, hlen]
    decide

/-- Witness for C6 applying the universal id law at a concrete input. -/
theorem index_entry_ids_witness :
    (processChunks (fun _ => Outcome.ok [2]) "D" [['x']] 0 0).1.map IndexEntry.id
      = (List.range ([['x']] : List (List Char)).length).map (fun j => entryId "D" (0 + j)) :=
  index_entry_ids.1 (fun _ => Outcome.ok [2]) "D" (fun _ => ⟨[2], rfl⟩) [['x']] 0 0

/-- Claim C8: a document with zero whitespace tokens yields zero chunks,
makes no embedding calls and no upserts, and is still marked complete,
with the run continuing unchanged; a document whose token count is
between 1 and the limit yields exactly one chunk. -/
theorem empty_and_short_documents :
    (∀ text : List Char, splitWs text = [] → chunk_text text 800 = []) ∧
    (∀ (provider : Nat → Outcome) (n : Nat) (docId : String) (text : List Char)
        (ds : List (String × List Char)), splitWs text = [] →
      processChunks provider docId (chunk_text text 800) 0 n = ([], n, false) ∧
      runDocs provider n ((docId, text) :: ds)
        = ⟨(runDocs provider n ds).upserts, docId :: (runDocs provider n ds).indexedDocs,
            (runDocs provider n ds).halted⟩) ∧
    (∀ (text : List Char) (L : Nat), 1 ≤ numTokens text → numTokens text ≤ L →
      (chunk_text text L).length = 1) := by
  have hempty : ∀ text : List Char, splitWs text = [] → chunk_text text 800 = [] := by
    intro text h
    unfold chunk_text
    rw [h]
    rfl
  refine ⟨hempty, ?_, ?_⟩
  · intro provider n docId text ds h
    have hct := hempty text h
    constructor
    · rw [hct]
      rfl
    · simp only [runDocs]
      rw [hct]
      simp only [processChunks]
      rw [if_neg (by simp)]
      simp only [List.nil_append]
  · intro text L h1 hL
    simp only [numTokens] at h1 hL
    rw [chunk_text_eq_groups, List.length_map,
      chunkGroups_count L (splitWs text) [] (by simp only [List.length_nil]; omega)]
    have hm : List.length ([] : List (List Char)) + (splitWs text).length + L - 1
        = ((splitWs text).length - 1) + L := by
      simp only [List.length_nil]
      omega
    rw [hm, Nat.add_div_right _ (by omega), Nat.div_eq_of_lt (by omega)]

/-- Witness for C8 at a whitespace-only document and a one-token document. -/
theorem empty_and_short_documents_witness :
    chunk_text [' '] 800 = [] ∧
    runDocs (fun _ => Outcome.transient) 0 [("empty", [' '])]
      = ⟨(runDocs (fun _ => Outcome.transient) 0 ([] : List (String × List Char))).upserts,
          "empty" ::
            (runDocs (fun _ => Outcome.transient) 0 ([] : List (String × List Char))).indexedDocs,
          (runDocs (fun _ => Outcome.transient) 0 ([] : List (String × List Char))).halted⟩ ∧
    (chunk_text ['a'] 800).length = 1 :=
  ⟨empty_and_short_documents.1 [' '] (by decide),
    (empty_and_short_documents.2.1 (fun _ => Outcome.transient) 0 "empty" [' '] []
      (by decide)).2,
    empty_and_short_documents.2.2 ['a'] 800 (by decide) (by decide)⟩
